import Mathlib

/-!
Shallow embedding of `src/utils/reducers.js` of the redux-firestore
repository, together with proofs of the specified properties.

JavaScript strings are embedded as `List Char` (`Str`), JavaScript plain
objects as association lists `List (K × V)` (JS objects have distinct keys
and a deterministic insertion order, which association lists built by the
embedded operations preserve), and possibly-`undefined` values as `Option`.
-/

namespace ReduxFirestore

/-- JavaScript strings, embedded as lists of characters. -/
abbrev Str := List Char

/-- Embeds `String.prototype.split` with a single-character separator (the source
uses the regexp `/\//`, which matches exactly the character `/`).
`"".split("/") == [""]`, and separators at the ends or doubled produce
empty-string elements, exactly as in JavaScript. -/
def splitChar (sep : Char) : Str → List Str
  | [] => [[]]
  | c :: cs =>
    if c = sep then [] :: splitChar sep cs
    else
      match splitChar sep cs with
      | [] => [[c]]
      | h :: t => (c :: h) :: t

/-- Embeds `Array.prototype.join` with a single-character separator. -/
def joinChar (sep : Char) : List Str → Str
  | [] => []
  | [s] => s
  | s :: rest => s ++ sep :: joinChar sep rest

/-- JavaScript truthiness of an optional string value: `undefined`/`null`
and the empty string are falsy, every other string is truthy. -/
def truthyStr : Option Str → Bool
  | none => false
  | some s => s ≠ []

/-- Embeds `pathToArr(path)`: `path ? path.split(/\//).filter(p => !!p) : []`.
The argument is `Option Str` because callers may pass `undefined`. -/
def pathToArr (path : Option Str) : List Str :=
  match path with
  | none => []
  | some p => if p ≠ [] then (splitChar '/' p).filter (fun s => s ≠ []) else []

/-- Embeds `getSlashStrPath(path)`: `pathToArr(path).join('/')`. -/
def getSlashStrPath (path : Option Str) : Str :=
  joinChar '/' (pathToArr path)

/-- Embeds `getDotStrPath(path)`: `pathToArr(path).join('.')`. -/
def getDotStrPath (path : Option Str) : Str :=
  joinChar '.' (pathToArr path)

/-- JavaScript property read `o[k]` on a plain object: the value stored at
key `k`, or `undefined` (`none`) when the key is absent. -/
def objGet {K V : Type} [DecidableEq K] : List (K × V) → K → Option V
  | [], _ => none
  | p :: rest, k => if p.1 = k then some p.2 else objGet rest k

/-- JavaScript property write `o[k] = v` on a plain object: overwrites the
value when the key exists (keeping its position in insertion order), and
appends the new key otherwise. -/
def objSet {K V : Type} [DecidableEq K] : List (K × V) → K → V → List (K × V)
  | [], k, v => [(k, v)]
  | p :: rest, k, v => if p.1 = k then (k, v) :: rest else p :: objSet rest k v

/-- Embeds `combineReducers(reducers)`: returns `(state = {}, action) =>`
`Object.keys(reducers).reduce((nextState, key) => { nextState[key] =`
`reducers[key](state[key], action); return nextState; }, {})`.
A JS object's keys are distinct and iterate in insertion order, so folding
directly over the entries of the association list is the same iteration as
`Object.keys(reducers)` followed by the lookup `reducers[key]`.  The
default parameter `state = {}` is modelled by `state.getD []`, and
`state[key]` yields `undefined` (`none`) when the key is absent. -/
def combineReducers {K V A : Type} [DecidableEq K]
    (reducers : List (K × (Option V → A → V))) :
    Option (List (K × V)) → A → List (K × V) :=
  fun state action =>
    reducers.foldl
      (fun nextState kr =>
        objSet nextState kr.1 (kr.2 (objGet (state.getD []) kr.1) action))
      []

/-- Embeds `updateObject(oldObject, newValues)`:
`Object.assign({}, oldObject, newValues)` — a fresh object holding all
entries of `oldObject`, then overwritten/extended by those of `newValues`. -/
def updateObject {K V : Type} [DecidableEq K]
    (oldObject newValues : List (K × V)) : List (K × V) :=
  newValues.foldl (fun acc kv => objSet acc kv.1 kv.2) oldObject

/-- An element of a state array: a record carrying a stable `id` field
(the rest of the record is abstracted as `val`). -/
structure Item (ι V : Type) where
  id : ι
  val : V
deriving DecidableEq

/-- Embeds `updateItemInArray(array, itemId, updateItemCallback)`:
`array.map(item => item.id !== itemId ? item : updateItemCallback(item))`
(the source writes the conditional as an if/else inside the callback). -/
def updateItemInArray {ι V : Type} [DecidableEq ι]
    (array : List (Item ι V)) (itemId : ι)
    (updateItemCallback : Item ι V → Item ι V) : List (Item ι V) :=
  array.map (fun item =>
    if item.id ≠ itemId then item else updateItemCallback item)

/-- The JavaScript values a caller can pass as the `preserveSetting`
argument, separated by the type tests of the source (`isFunction`,
`isBoolean`, `isArray`, and everything else). -/
inductive PreserveSetting (K V : Type) where
  | func (f : List (K × V) → Option (List (K × V)) → List (K × V))
  | bool (b : Bool)
  | arr (fields : List K)
  | null
  | num (n : Int)
  | str (s : Str)

/-- The error thrown by `preserveValuesFromState` (`Invalid preserve
parameter. It must be an Object or an Array`). -/
inductive PreserveError where
  | invalidPreserveSetting
deriving DecidableEq

/-- lodash `pick(state, fields)`: a new object containing, in the order of
`fields`, the entries of `state` whose key occurs in `fields`; fields
absent from `state` are omitted. -/
def pick {K V : Type} [DecidableEq K]
    (state : List (K × V)) (fields : List K) : List (K × V) :=
  fields.filterMap (fun f => (objGet state f).map (fun v => (f, v)))

/-- Embeds `preserveValuesFromState(state, preserveSetting, nextState)`: a
function setting is applied; boolean `true` merges (`nextState ?`
`{...state, ...nextState} : state`); an array setting picks fields; every
other value — including `false`, which passes the `isBoolean` test but
fails the `&& preserveSetting` conjunct — reaches the final `throw`. -/
def preserveValuesFromState {K V : Type} [DecidableEq K]
    (state : List (K × V)) (preserveSetting : PreserveSetting K V)
    (nextState : Option (List (K × V))) :
    Except PreserveError (List (K × V)) :=
  match preserveSetting with
  | .func f => .ok (f state nextState)
  | .bool b =>
    if b then
      .ok (match nextState with
           | some ns => updateObject state ns
           | none => state)
    else .error .invalidPreserveSetting
  | .arr fields => .ok (pick state fields)
  | .null => .error .invalidPreserveSetting
  | .num _ => .error .invalidPreserveSetting
  | .str _ => .error .invalidPreserveSetting

/-- The errors thrown by `pathFromMeta`, distinguished by their messages:
`Action meta is required to build path for reducers.` and
`Collection is required to construct reducer path.`. -/
inductive PathError where
  | missingMeta
  | missingCollection
deriving DecidableEq

mutual
/-- An action `meta` argument. `undef` models an absent (`undefined` or
otherwise falsy) value passed where a meta object is expected; `mk` is a
meta object with its four optional fields. -/
inductive Meta where
  | undef : Meta
  | mk (collection doc : Option Str) (subcollections : Option MetaList)
      (storeAs : Option Str) : Meta

/-- A JavaScript array of (possibly absent) meta objects, as stored in the
`subcollections` field. -/
inductive MetaList where
  | nil : MetaList
  | cons (m : Meta) (rest : MetaList) : MetaList
end

/-- The underlying list of a `MetaList`. -/
def MetaList.toList : MetaList → List Meta
  | .nil => []
  | .cons m rest => m :: rest.toList

mutual
/-- Embeds `pathFromMeta(meta)`: throws when `meta` is falsy; returns `storeAs`
when it is truthy; throws when `collection` is falsy; otherwise builds
`collection`, appends `.doc` when `doc` is truthy, returns that base path
when `subcollections` is `undefined`/`null` (`if (!subcollections)` — an
empty array is truthy and does not take this branch), and otherwise
appends `'.' + subcollections.map(pathFromMeta).join('.')`. -/
def pathFromMeta : Meta → Except PathError Str
  | .undef => .error .missingMeta
  | .mk collection doc subcollections storeAs =>
    if truthyStr storeAs then .ok (storeAs.getD [])
    else if ¬ truthyStr collection then .error .missingCollection
    else
      let basePath :=
        collection.getD [] ++ (if truthyStr doc then '.' :: doc.getD [] else [])
      match subcollections with
      | none => .ok basePath
      | some subs =>
        match pathFromMetaList subs with
        | .error e => .error e
        | .ok mapped => .ok (basePath ++ '.' :: joinChar '.' mapped)

/-- Embeds `subcollections.map(pathFromMeta)` with JavaScript exception
semantics: the first entry that throws aborts the whole map and its error
propagates. -/
def pathFromMetaList : MetaList → Except PathError (List Str)
  | .nil => .ok []
  | .cons m rest =>
    match pathFromMeta m with
    | .error e => .error e
    | .ok p =>
      match pathFromMetaList rest with
      | .error e => .error e
      | .ok ps => .ok (p :: ps)
end

/-! Lemmas about `splitChar`, `joinChar` and `pathToArr` -/

theorem splitChar_ne_nil (sep : Char) (s : Str) : splitChar sep s ≠ [] := by
  induction s with
  | nil => simp [splitChar]
  | cons c cs ih =>
    simp only [splitChar]
    split
    · simp
    · split <;> simp

theorem not_mem_of_mem_splitChar {sep : Char} {s t : Str}
    (h : t ∈ splitChar sep s) : sep ∉ t := by
  induction s generalizing t with
  | nil =>
    simp [splitChar] at h
    simp [h]
  | cons c cs ih =>
    simp only [splitChar] at h
    by_cases hc : c = sep
    · rw [if_pos hc] at h
      rcases List.mem_cons.1 h with h | h
      · simp [h]
      · exact ih h
    · rw [if_neg hc] at h
      rcases hsp : splitChar sep cs with _ | ⟨hd, tl⟩
      · exact absurd hsp (splitChar_ne_nil sep cs)
      · rw [hsp] at h
        rcases List.mem_cons.1 h with h | h
        · subst h
          intro hmem
          rcases List.mem_cons.1 hmem with h | h
          · exact hc h.symm
          · exact ih (by rw [hsp]; exact List.mem_cons_self hd tl) h
        · exact ih (by rw [hsp]; exact List.mem_cons_of_mem hd h)

theorem splitChar_of_not_mem {sep : Char} {s : Str} (h : sep ∉ s) :
    splitChar sep s = [s] := by
  induction s with
  | nil => simp [splitChar]
  | cons c cs ih =>
    have hc : ¬ c = sep := fun he => h (he ▸ List.mem_cons_self c cs)
    have hcs : sep ∉ cs := fun hm => h (List.mem_cons_of_mem c hm)
    simp only [splitChar, if_neg hc, ih hcs]

theorem splitChar_append {sep : Char} {x t : Str} (h : sep ∉ x) :
    splitChar sep (x ++ sep :: t) = x :: splitChar sep t := by
  induction x with
  | nil => simp [splitChar]
  | cons c cs ih =>
    have hc : ¬ c = sep := fun he => h (he ▸ List.mem_cons_self c cs)
    have hcs : sep ∉ cs := fun hm => h (List.mem_cons_of_mem c hm)
    rw [List.cons_append, splitChar, if_neg hc, ih hcs]

theorem splitChar_joinChar {sep : Char} {l : List Str} (hl : l ≠ [])
    (h : ∀ s ∈ l, sep ∉ s) : splitChar sep (joinChar sep l) = l := by
  induction l with
  | nil => exact absurd rfl hl
  | cons s rest ih =>
    cases rest with
    | nil => simp [joinChar, splitChar_of_not_mem (h s (List.mem_cons_self s []))]
    | cons s2 r2 =>
      have hs : sep ∉ s := h s (List.mem_cons_self s (s2 :: r2))
      rw [joinChar, splitChar_append hs,
        ih (List.cons_ne_nil s2 r2) (fun u hu => h u (List.mem_cons_of_mem s hu))]
      exact List.cons_ne_nil s2 r2

theorem joinChar_ne_nil {sep : Char} {l : List Str} (hl : l ≠ [])
    (h : ∀ s ∈ l, s ≠ []) : joinChar sep l ≠ [] := by
  cases l with
  | nil => exact absurd rfl hl
  | cons s rest =>
    cases rest with
    | nil => simpa [joinChar] using h s (List.mem_cons_self s [])
    | cons s2 r2 => simp [joinChar]

theorem not_mem_joinChar {a sep : Char} (hne : a ≠ sep) {l : List Str}
    (h : ∀ s ∈ l, a ∉ s) : a ∉ joinChar sep l := by
  induction l with
  | nil => simp [joinChar]
  | cons s rest ih =>
    cases rest with
    | nil => simpa [joinChar] using h s (List.mem_cons_self s [])
    | cons s2 r2 =>
      simp only [joinChar, List.mem_append, List.mem_cons]
      push_neg
      refine ⟨h s (List.mem_cons_self s (s2 :: r2)), hne, ?_⟩
      have := ih (fun u hu => h u (List.mem_cons_of_mem s hu))
      simpa [joinChar] using this

theorem ne_nil_of_mem_pathToArr {p : Option Str} {s : Str}
    (h : s ∈ pathToArr p) : s ≠ [] := by
  match p with
  | none => simp [pathToArr] at h
  | some q =>
    rw [pathToArr] at h
    split at h
    · simpa using (List.mem_filter.1 h).2
    · exact absurd h (List.not_mem_nil s)

theorem not_slash_of_mem_pathToArr {p : Option Str} {s : Str}
    (h : s ∈ pathToArr p) : '/' ∉ s := by
  match p with
  | none => simp [pathToArr] at h
  | some q =>
    rw [pathToArr] at h
    split at h
    · exact not_mem_of_mem_splitChar (show s ∈ splitChar '/' q from List.mem_of_mem_filter h)
    · exact absurd h (List.not_mem_nil s)

/-! Claim C5 -/

/-- C5: for every path string, `pathToArr` returns a sequence with no
empty-string segments (they are dropped while order is preserved —
witnessed both by the sublist relation to the raw split and by the
concrete example), and empty or `undefined` input yields the empty
sequence; `pathToArr("/a//b/") == ["a","b"]`. -/
theorem pathToArr_spec :
    (∀ (p : Option Str) (s : Str), s ∈ pathToArr p → s ≠ []) ∧
    (∀ p : Str, List.Sublist (pathToArr (some p)) (splitChar '/' p)) ∧
    pathToArr none = [] ∧
    pathToArr (some []) = [] ∧
    pathToArr (some "/a//b/".toList) = ["a".toList, "b".toList] := by
  refine ⟨fun p s h => ne_nil_of_mem_pathToArr h, fun p => ?_, rfl, rfl, by decide⟩
  rw [pathToArr]
  split
  · exact List.filter_sublist _
  · exact List.nil_sublist _

/-- C5 witness: the general clauses applied at the concrete path
`"/a//b/"` and its first returned segment. -/
theorem pathToArr_spec_witness :
    "a".toList ≠ [] ∧
    pathToArr (some "/a//b/".toList) = ["a".toList, "b".toList] :=
  ⟨pathToArr_spec.1 (some "/a//b/".toList) "a".toList (by decide),
   pathToArr_spec.2.2.2.2⟩

/-! Claim C8 -/

/-- C8: `getDotStrPath` and `getSlashStrPath` are idempotent on their own
outputs: re-running either on an already-normalized string is a no-op. -/
theorem getStrPath_idempotent :
    ∀ x : Option Str,
      getDotStrPath (some (getDotStrPath x)) = getDotStrPath x ∧
      getSlashStrPath (some (getSlashStrPath x)) = getSlashStrPath x := by
  intro x
  have h1 : ∀ s ∈ pathToArr x, s ≠ [] := fun s hs => ne_nil_of_mem_pathToArr hs
  have h2 : ∀ s ∈ pathToArr x, '/' ∉ s := fun s hs => not_slash_of_mem_pathToArr hs
  by_cases hl : pathToArr x = []
  · constructor
    · simp only [getDotStrPath]
      rw [hl]
      rfl
    · simp only [getSlashStrPath]
      rw [hl]
      rfl
  · constructor
    · show joinChar '.' (pathToArr (some (joinChar '.' (pathToArr x))))
        = joinChar '.' (pathToArr x)
      have hd : joinChar '.' (pathToArr x) ≠ [] := joinChar_ne_nil hl h1
      have hs : '/' ∉ joinChar '.' (pathToArr x) :=
        not_mem_joinChar (by decide) h2
      rw [pathToArr, if_pos hd, splitChar_of_not_mem hs]
      simp [List.filter, hd, joinChar]
    · show joinChar '/' (pathToArr (some (joinChar '/' (pathToArr x))))
        = joinChar '/' (pathToArr x)
      have hd : joinChar '/' (pathToArr x) ≠ [] := joinChar_ne_nil hl h1
      rw [pathToArr, if_pos hd, splitChar_joinChar hl h2,
        List.filter_eq_self.2 (fun s hs => by simpa using h1 s hs)]

/-! Lemmas about `pathFromMetaList` -/

/-- If every subcollection entry resolves (to the pointwise-corresponding
path), the mapped list of paths is returned. -/
theorem pathFromMetaList_ok : ∀ {subs : MetaList} {ps : List Str},
    List.Forall₂ (fun m p => pathFromMeta m = .ok p) subs.toList ps →
    pathFromMetaList subs = .ok ps
  | .nil, ps, h => by
    rw [MetaList.toList] at h
    cases h
    rfl
  | .cons m rest, ps, h => by
    rw [MetaList.toList] at h
    cases h with
    | cons hm htl =>
      rw [pathFromMetaList, hm, pathFromMetaList_ok htl]

/-- If some subcollection entry fails, the whole mapped list fails (with
the first failing entry's error). -/
theorem pathFromMetaList_error : ∀ {subs : MetaList} {e : Meta} {err : PathError},
    e ∈ subs.toList → pathFromMeta e = .error err →
    ∃ err2, pathFromMetaList subs = .error err2
  | .nil, e, err, he, _ => by
    rw [MetaList.toList] at he
    exact absurd he (List.not_mem_nil e)
  | .cons m rest, e, err, he, herr => by
    rw [MetaList.toList] at he
    rcases List.mem_cons.1 he with he | he
    · subst he
      exact ⟨err, by rw [pathFromMetaList, herr]⟩
    · rcases hm : pathFromMeta m with e1 | p
      · exact ⟨e1, by rw [pathFromMetaList, hm]⟩
      · obtain ⟨e2, h2⟩ := pathFromMetaList_error he herr
        exact ⟨e2, by rw [pathFromMetaList, hm, h2]⟩

/-! Claim C2 -/

/-- C2: whenever `storeAs` is a non-empty string, `pathFromMeta` returns
it verbatim, whatever the `collection`, `doc` and `subcollections` fields
hold. -/
theorem pathFromMeta_storeAs (collection doc : Option Str)
    (subs : Option MetaList) (s : Str) (hs : s ≠ []) :
    pathFromMeta (.mk collection doc subs (some s)) = .ok s := by
  rw [pathFromMeta]
  rw [if_pos (by simpa [truthyStr] using hs)]
  rfl

/-- C2 witness: `resolve({ storeAs: "x", collection: "ignored" }) == "x"`. -/
theorem pathFromMeta_storeAs_witness :
    pathFromMeta (.mk (some "ignored".toList) none none (some "x".toList))
      = .ok "x".toList :=
  pathFromMeta_storeAs (some "ignored".toList) none none "x".toList (by decide)

/-! Claim C3 -/

/-- C3: a falsy `meta` fails with the missing-meta error; a meta with
neither a truthy `storeAs` nor a truthy `collection` fails with the
missing-collection error; and when a subcollection entry fails, the outer
call fails too (no partial path is returned). -/
theorem pathFromMeta_errors :
    pathFromMeta .undef = .error .missingMeta ∧
    (∀ (collection doc : Option Str) (subs : Option MetaList)
        (storeAs : Option Str),
      truthyStr storeAs = false → truthyStr collection = false →
      pathFromMeta (.mk collection doc subs storeAs)
        = .error .missingCollection) ∧
    (∀ (collection doc : Option Str) (subs : MetaList)
        (storeAs : Option Str) (e : Meta) (err : PathError),
      truthyStr storeAs = false → truthyStr collection = true →
      e ∈ subs.toList → pathFromMeta e = .error err →
      ∃ err2, pathFromMeta (.mk collection doc (some subs) storeAs)
        = .error err2) := by
  refine ⟨rfl, ?_, ?_⟩
  · intro collection doc subs storeAs h1 h2
    rw [pathFromMeta, if_neg (by simp [h1]), if_pos (by simp [h2])]
  · intro collection doc subs storeAs e err h1 h2 he herr
    obtain ⟨err2, hl⟩ := pathFromMetaList_error he herr
    refine ⟨err2, ?_⟩
    rw [pathFromMeta, if_neg (by simp [h1]), if_neg (by simp [h2])]
    simp only [hl]

/-- C3 witness: `resolve({})` fails with the missing-collection error, and
an outer meta whose subcollections contain an absent entry fails. -/
theorem pathFromMeta_errors_witness :
    pathFromMeta (.mk none none none none) = .error .missingCollection ∧
    ∃ err2, pathFromMeta
        (.mk (some "c".toList) none (some (.cons .undef .nil)) none)
      = .error err2 :=
  ⟨pathFromMeta_errors.2.1 none none none none rfl rfl,
   pathFromMeta_errors.2.2 (some "c".toList) none (.cons .undef .nil) none
     .undef .missingMeta rfl (by decide)
     (by rw [MetaList.toList]; exact List.mem_cons_self _ _) rfl⟩

/-! Claim C1 -/

/-- C1: with a truthy collection, no truthy `storeAs` and a non-empty
`subcollections` array whose entries all resolve, `pathFromMeta` returns
the base path (collection, extended with `.doc` when `doc` is truthy),
then a dot, then the recursively resolved subcollection paths joined
flatly by dots, in order. -/
theorem pathFromMeta_subcollections (c : Str) (doc : Option Str)
    (subs : MetaList) (storeAs : Option Str) (paths : List Str)
    (hc : c ≠ []) (hsa : truthyStr storeAs = false)
    (hne : subs.toList ≠ [])
    (hmap : List.Forall₂ (fun m p => pathFromMeta m = .ok p)
      subs.toList paths) :
    pathFromMeta (.mk (some c) doc (some subs) storeAs)
      = .ok ((c ++ (if truthyStr doc then '.' :: doc.getD [] else []))
             ++ '.' :: joinChar '.' paths) := by
  rw [pathFromMeta, if_neg (by simp [hsa]), if_neg (by simp [truthyStr, hc])]
  simp only [pathFromMetaList_ok hmap, Option.getD_some]

/-- C1 witness: the spec example
`resolve({collection:"c", doc:"d", subcollections:[{collection:"s1"},`
`{collection:"s2", doc:"d2"}]}) == "c.d.s1.s2.d2"`. -/
theorem pathFromMeta_subcollections_witness :
    pathFromMeta (.mk (some "c".toList) (some "d".toList)
      (some (.cons (.mk (some "s1".toList) none none none)
        (.cons (.mk (some "s2".toList) (some "d2".toList) none none) .nil)))
      none)
      = .ok "c.d.s1.s2.d2".toList :=
  pathFromMeta_subcollections "c".toList (some "d".toList)
    (.cons (.mk (some "s1".toList) none none none)
      (.cons (.mk (some "s2".toList) (some "d2".toList) none none) .nil))
    none ["s1".toList, "s2.d2".toList]
    (by decide) rfl (by rw [MetaList.toList]; exact List.cons_ne_nil _ _)
    (List.Forall₂.cons rfl (List.Forall₂.cons rfl List.Forall₂.nil))

/-! Claim C9 -/

/-- C9: a present-but-empty `subcollections` array is truthy in
JavaScript, so the `if (!subcollections)` early return is not taken and
the result is the base path followed by a trailing dot, not the bare base
path. -/
theorem pathFromMeta_empty_subcollections (c : Str) (doc storeAs : Option Str)
    (hc : c ≠ []) (hsa : truthyStr storeAs = false) :
    pathFromMeta (.mk (some c) doc (some .nil) storeAs)
      = .ok ((c ++ (if truthyStr doc then '.' :: doc.getD [] else []))
             ++ ['.']) := by
  rw [pathFromMeta, if_neg (by simp [hsa]), if_neg (by simp [truthyStr, hc])]
  rfl

/-- C9 witness:
`pathFromMeta({collection:"c", doc:"d", subcollections:[]}) == "c.d."`. -/
theorem pathFromMeta_empty_subcollections_witness :
    pathFromMeta (.mk (some "c".toList) (some "d".toList) (some .nil) none)
      = .ok "c.d.".toList :=
  pathFromMeta_empty_subcollections "c".toList (some "d".toList) none
    (by decide) rfl

/-! Claim C4 -/

theorem objSet_of_not_mem {K V : Type} [DecidableEq K] {o : List (K × V)}
    {k : K} {v : V} (h : k ∉ o.map Prod.fst) : objSet o k v = o ++ [(k, v)] := by
  induction o with
  | nil => rfl
  | cons p rest ih =>
    have hp : ¬ p.1 = k := fun he => h (by simp [he])
    rw [objSet, if_neg hp, ih (fun hm => h (by simp [hm]))]
    rfl

theorem combineReducers_foldl {K V A : Type} [DecidableEq K]
    (state : Option (List (K × V))) (action : A)
    (reducers : List (K × (Option V → A → V))) :
    ∀ (acc : List (K × V)),
      (acc.map Prod.fst ++ reducers.map Prod.fst).Nodup →
      reducers.foldl
        (fun nextState kr =>
          objSet nextState kr.1 (kr.2 (objGet (state.getD []) kr.1) action))
        acc
        = acc ++ reducers.map
            (fun kr => (kr.1, kr.2 (objGet (state.getD []) kr.1) action)) := by
  induction reducers with
  | nil =>
    intro acc _
    simp
  | cons kr rest ih =>
    intro acc h
    have hk : kr.1 ∉ acc.map Prod.fst := by
      intro hmem
      exact (List.nodup_append.1 h).2.2 hmem (by simp)
    rw [List.foldl_cons, objSet_of_not_mem hk, ih]
    · simp
    · simpa using h

/-- C4: for a reducer map with distinct keys (every JavaScript object has
distinct keys), the reducer built by `combineReducers` returns an object
whose entries are exactly one per reducer-map key, in order, each value
being that key's sub-reducer applied to `state[key]` (which is
`undefined` when `state` is absent or lacks the key) and the action; in
particular the key set is exactly the reducer map's keys and extra keys of
the incoming state are dropped.  (Fresh allocation holds by construction:
the object is built by folding over a new empty object.) -/
theorem combineReducers_spec {K V A : Type} [DecidableEq K]
    (reducers : List (K × (Option V → A → V)))
    (state : Option (List (K × V))) (action : A)
    (hnd : (reducers.map Prod.fst).Nodup) :
    combineReducers reducers state action
      = reducers.map
          (fun kr => (kr.1, kr.2 (objGet (state.getD []) kr.1) action)) ∧
    (combineReducers reducers state action).map Prod.fst
      = reducers.map Prod.fst := by
  have h := combineReducers_foldl state action reducers [] (by simpa using hnd)
  rw [List.nil_append] at h
  exact ⟨h, (congrArg (List.map Prod.fst) h).trans (by simp)⟩

/-- C4 witness: two reducers, an incoming state with an extra key `2`
(dropped) and a missing key `0` (that sub-reducer receives `none`). -/
theorem combineReducers_spec_witness :
    combineReducers
        [(0, fun s a => s.getD 0 + a), (1, fun s a => s.getD 0 * a)]
        (some [(1, 5), (2, 9)]) 3
      = [(0, 3), (1, 15)] ∧
    (combineReducers
        [(0, fun s a => s.getD 0 + a), (1, fun s a => s.getD 0 * a)]
        (some [(1, 5), (2, 9)]) 3).map Prod.fst
      = [0, 1] :=
  ⟨(combineReducers_spec _ _ 3 (by decide)).1,
   (combineReducers_spec _ _ 3 (by decide)).2⟩

/-! Claim C6 -/

/-- C6: `updateItemInArray` keeps length and order, passes through every
element whose `id` differs from the target, replaces a matching element by
the callback's result, and on no match returns the input
element-for-element with no error. -/
theorem updateItemInArray_spec {ι V : Type} [DecidableEq ι]
    (array : List (Item ι V)) (itemId : ι) (f : Item ι V → Item ι V) :
    (updateItemInArray array itemId f).length = array.length ∧
    (∀ (i : Nat) (h : i < array.length)
        (h2 : i < (updateItemInArray array itemId f).length),
      ((array.get ⟨i, h⟩).id ≠ itemId →
        (updateItemInArray array itemId f).get ⟨i, h2⟩ = array.get ⟨i, h⟩) ∧
      ((array.get ⟨i, h⟩).id = itemId →
        (updateItemInArray array itemId f).get ⟨i, h2⟩
          = f (array.get ⟨i, h⟩))) ∧
    ((∀ x ∈ array, x.id ≠ itemId) → updateItemInArray array itemId f = array) := by
  refine ⟨by simp [updateItemInArray], ?_, ?_⟩
  · intro i h h2
    have key : (updateItemInArray array itemId f).get ⟨i, h2⟩
        = if (array.get ⟨i, h⟩).id ≠ itemId then array.get ⟨i, h⟩
          else f (array.get ⟨i, h⟩) := by
      simp [updateItemInArray]
    constructor
    · intro hid
      rw [key, if_pos hid]
    · intro hid
      rw [key, if_neg (by simpa using hid)]
  · intro hall
    rw [updateItemInArray]
    have : ∀ x ∈ array,
        (if x.id ≠ itemId then x else f x) = x :=
      fun x hx => if_pos (hall x hx)
    rw [List.map_congr_left this]
    exact List.map_id array

/-- C6 witness: the spec example (length preserved) and a no-match call
returning the input list unchanged. -/
theorem updateItemInArray_spec_witness :
    (updateItemInArray [⟨1, "a".toList⟩, ⟨2, "b".toList⟩] 2
      (fun it => ⟨it.id, "c".toList⟩)).length = 2 ∧
    updateItemInArray [(⟨1, "a".toList⟩ : Item Nat Str)] 5
      (fun it => ⟨it.id, "c".toList⟩) = [⟨1, "a".toList⟩] :=
  ⟨(updateItemInArray_spec _ 2 _).1,
   (updateItemInArray_spec _ 5 _).2.2 (by decide)⟩

/-! Claim C10 -/

/-- C10: the callback is applied to every element whose `id` equals the
target, not only the first match (`Array.prototype.map` visits every
element). -/
theorem updateItemInArray_matches {ι V : Type} [DecidableEq ι]
    (array : List (Item ι V)) (itemId : ι) (f : Item ι V → Item ι V)
    (i : Nat) (h : i < array.length)
    (h2 : i < (updateItemInArray array itemId f).length)
    (hid : (array.get ⟨i, h⟩).id = itemId) :
    (updateItemInArray array itemId f).get ⟨i, h2⟩ = f (array.get ⟨i, h⟩) := by
  have key : (updateItemInArray array itemId f).get ⟨i, h2⟩
      = if (array.get ⟨i, h⟩).id ≠ itemId then array.get ⟨i, h⟩
        else f (array.get ⟨i, h⟩) := by
    simp [updateItemInArray]
  rw [key, if_neg (by simpa using hid)]

/-- C10 witness: both elements carry the target id `1`; the second (index
1) is also replaced by the callback's result. -/
theorem updateItemInArray_matches_witness :
    (updateItemInArray [⟨1, "a".toList⟩, ⟨1, "b".toList⟩] 1
      (fun it => ⟨it.id, "z".toList⟩)).get ⟨1, by decide⟩
      = ⟨1, "z".toList⟩ :=
  updateItemInArray_matches [⟨1, "a".toList⟩, ⟨1, "b".toList⟩] 1
    (fun it => ⟨it.id, "z".toList⟩) 1 (by decide) (by decide) (by decide)

/-! Claim C7 -/

/-- C7: whenever the preserve setting is not a function, not the boolean
`true` and not an array of field names — so also for `false`, `null`,
numbers and strings — `preserveValuesFromState` fails with the
invalid-preserve-setting error, for every prior state and candidate next
state. -/
theorem preserveValuesFromState_invalid {K V : Type} [DecidableEq K]
    (state : List (K × V)) (s : PreserveSetting K V)
    (nextState : Option (List (K × V)))
    (hf : ∀ f, s ≠ .func f) (hb : s ≠ .bool true) (ha : ∀ l, s ≠ .arr l) :
    preserveValuesFromState state s nextState
      = .error .invalidPreserveSetting := by
  cases s with
  | func f => exact absurd rfl (hf f)
  | bool b =>
    cases b with
    | false => rfl
    | true => exact absurd rfl hb
  | arr l => exact absurd rfl (ha l)
  | null => rfl
  | num n => rfl
  | str t => rfl

/-- C7 witness: the setting `42` (and likewise the boolean `false`) fails
with the invalid-preserve-setting error. -/
theorem preserveValuesFromState_invalid_witness :
    preserveValuesFromState [(0, 1)] (.num 42) (some [(1, 2)])
      = .error .invalidPreserveSetting ∧
    preserveValuesFromState [(0, 1)] (.bool false) (some [(1, 2)])
      = .error .invalidPreserveSetting :=
  ⟨preserveValuesFromState_invalid [(0, 1)] (.num 42) (some [(1, 2)])
     (fun f h => nomatch h) (fun h => nomatch h) (fun l h => nomatch h),
   preserveValuesFromState_invalid [(0, 1)] (.bool false) (some [(1, 2)])
     (fun f h => nomatch h) (fun h => by simp at h) (fun l h => nomatch h)⟩

end ReduxFirestore
